import Mathlib

/-!
Verification of the bot process supervisor in
`src/desktop/src-tauri/src/lib.rs` (crate `c2me` desktop shell).

The supervisor owns one optional child process and its start time, both
behind mutexes; every access to `start_time` in the source happens while
the `process` mutex is held, so the lifecycle operations are serialized
and are embedded here as pure functions over an explicit state record.
OS effects (spawn, signals, sleeps, HTTP probes, `ps` queries) are
recorded in an effect trace; environment outcomes (spawn success, probe
answers) are passed in as parameters.
-/

/-- Whether the build target is a Unix platform: the source guards the
graceful TERM signal, the `kill -0` probe and the `ps` memory query with
`#[cfg(unix)]`. -/
inductive OsKind where
  | unix : OsKind
  | other : OsKind
deriving DecidableEq, Repr

/-- Embeds `BotState`: `process: Mutex<Option<Child>>` is modelled by the
child's PID, `start_time: Mutex<Option<Instant>>` by a natural-number
instant. -/
structure BotState where
  process : Option Nat
  start_time : Option Nat
deriving DecidableEq, Repr

/-- Embeds `BotStatus` (is_running, uptime_seconds, pid). -/
structure BotStatus where
  is_running : Bool
  uptime_seconds : Nat
  pid : Option Nat
deriving DecidableEq, Repr

/-- Embeds `BotHealth`; `memory_mb: Option<f64>` is modelled with rationals
(the only arithmetic performed on it is the exact division `rss_kb / 1024`). -/
structure BotHealth where
  is_running : Bool
  is_responsive : Bool
  uptime_seconds : Nat
  pid : Option Nat
  memory_mb : Option ℚ
deriving DecidableEq, Repr

/-- Observable OS-level effects of the lifecycle operations, in program
order. `clearStart` marks the write that sets `start_time` to `None`. -/
inductive OsAction where
  | spawn (path : String)
  | sigterm (pid : Nat)
  | sleepMs (ms : Nat)
  | killChild
  | waitChild
  | clearStart
  | httpGet (url : String)
  | memQuery (pid : Nat)
  | sigZero (pid : Nat)
deriving DecidableEq, Repr

/-- Embeds `stop_bot_internal`.  `termSpawnOk` is the ignored result of
spawning the `kill -TERM` command (the source discards it with `let _`);
the TERM signal itself is only sent on Unix.  On a tracked worker the
source takes the child, signals, sleeps 500 ms, hard-kills, reaps, and
only then clears `start_time`; otherwise it fails with
"Bot is not running". -/
def stop_bot_internal (p : OsKind) (termSpawnOk : Bool) (s : BotState) :
    BotState × Except String String × List OsAction :=
  match s.process with
  | some pid =>
      (⟨none, none⟩, Except.ok "Bot stopped successfully",
        (match p with
         | OsKind.unix => [OsAction.sigterm pid]
         | OsKind.other => []) ++
        [OsAction.sleepMs 500, OsAction.killChild, OsAction.waitChild, OsAction.clearStart])
  | none => (s, Except.error "Bot is not running", [])

/-- Embeds `start_bot_internal`.  `spawnRes` is the outcome of
`Command::new("pnpm").args(["run","dev"]).current_dir(path).spawn()`:
`.ok pid` on success, `.error e` when the OS refuses the spawn. -/
def start_bot_internal (s : BotState) (path : String)
    (spawnRes : Except String Nat) (now : Nat) :
    BotState × Except String String × List OsAction :=
  if s.process.isSome then
    (s, Except.error "Bot is already running", [])
  else
    match spawnRes with
    | Except.error e =>
        (s, Except.error ("Failed to start bot: " ++ e), [OsAction.spawn path])
    | Except.ok pid =>
        (⟨some pid, some now⟩,
         Except.ok ("Bot started with PID: " ++ toString pid),
         [OsAction.spawn path])

/-- Embeds `restart_bot`: stop with the error discarded, a fixed 300 ms
sleep, then start with the same path. -/
def restart_bot (p : OsKind) (termSpawnOk : Bool) (s : BotState)
    (path : String) (spawnRes : Except String Nat) (now : Nat) :
    BotState × Except String String × List OsAction :=
  let step1 := stop_bot_internal p termSpawnOk s
  let step2 := start_bot_internal step1.1 path spawnRes now
  (step2.1, step2.2.1, step1.2.2 ++ OsAction.sleepMs 300 :: step2.2.2)

/-- Embeds `get_bot_status`.  `httpRes` is the outcome of the fallback
`GET http://127.0.0.1:3002/metrics`: `none` for a network error,
`some b` for a response whose `status().is_success()` is `b`.  The probe
is issued only when no local worker is tracked. -/
def get_bot_status (s : BotState) (now : Nat) (httpRes : Option Bool) :
    BotStatus × List OsAction :=
  let is_running := s.process.isSome
  let uptime_seconds :=
    match s.start_time with
    | some t => now - t
    | none => 0
  let pid := s.process
  if is_running then
    (⟨true, uptime_seconds, pid⟩, [])
  else
    (⟨(match httpRes with
       | some ok => ok
       | none => false), uptime_seconds, pid⟩,
     [OsAction.httpGet "http://127.0.0.1:3002/metrics"])

/-- Embeds `get_bot_health`.  `probeOk` is the combined outcome of the
`kill -0` probe (`output()` success and exit status success); `rssKb` is
the parsed output of `ps -o rss= -p pid` (`none` when the command or the
parse fails).  Both are consulted only on Unix with a tracked PID. -/
def get_bot_health (p : OsKind) (s : BotState) (now : Nat)
    (probeOk : Bool) (rssKb : Option ℚ) : BotHealth × List OsAction :=
  let is_running := s.process.isSome
  let pid := s.process
  let uptime_seconds :=
    match s.start_time with
    | some t => now - t
    | none => 0
  let memory_mb : Option ℚ :=
    pid.bind (fun _ =>
      match p with
      | OsKind.unix => rssKb.map (fun r => r / 1024)
      | OsKind.other => none)
  let is_responsive :=
    match pid with
    | some _ =>
        (match p with
         | OsKind.unix => probeOk
         | OsKind.other => true)
    | none => false
  let trace :=
    match pid, p with
    | some q, OsKind.unix => [OsAction.memQuery q, OsAction.sigZero q]
    | _, _ => []
  (⟨is_running, is_responsive, uptime_seconds, pid, memory_mb⟩, trace)

/-- A lifecycle operation together with the environment outcomes it
consumes; used to enumerate the reachable supervisor states. -/
inductive Op where
  | start (path : String) (spawnRes : Except String Nat) (now : Nat)
  | stop (p : OsKind) (termSpawnOk : Bool)
  | restart (p : OsKind) (termSpawnOk : Bool) (path : String)
      (spawnRes : Except String Nat) (now : Nat)
  | status (now : Nat) (httpRes : Option Bool)
  | health (p : OsKind) (now : Nat) (probeOk : Bool) (rssKb : Option ℚ)

/-- State transition of one lifecycle operation; `status` and `health`
only read the state. -/
def applyOp (s : BotState) : Op → BotState
  | Op.start path r now => (start_bot_internal s path r now).1
  | Op.stop p d => (stop_bot_internal p d s).1
  | Op.restart p d path r now => (restart_bot p d s path r now).1
  | Op.status _ _ => s
  | Op.health _ _ _ _ => s

/-- The supervisor state after a sequence of lifecycle operations,
starting from `BotState::default()` (both fields `None`). -/
def runOps (ops : List Op) : BotState :=
  ops.foldl applyOp ⟨none, none⟩

/-- The two-field pair invariant of `BotState`. -/
def pairInv (s : BotState) : Prop :=
  s.start_time.isSome = s.process.isSome

/-- A sequence of `start` calls (working directory, spawn outcome, clock
reading per call) run back to back with no intervening `stop`, collecting
each call's result and the concatenated effect trace. -/
def runStarts (s : BotState) :
    List (String × Except String Nat × Nat) →
    BotState × List (Except String String) × List OsAction
  | [] => (s, [], [])
  | (path, r, now) :: rest =>
      let step := start_bot_internal s path r now
      let tail := runStarts step.1 rest
      (tail.1, step.2.1 :: tail.2.1, step.2.2 ++ tail.2.2)

/-- Severity of a forwarded log line: the stdout listener logs at `info!`,
the stderr listener at `error!`. -/
inductive LogLevel where
  | info : LogLevel
  | err : LogLevel
deriving DecidableEq, Repr

/-- A structured log event forwarded to the log-plugin sink. -/
structure LogEvent where
  level : LogLevel
  message : String
deriving DecidableEq, Repr

/-- Embeds one output-stream listener thread of `start_bot_internal`: it
consumes the stream's successive `BufReader::lines()` items (`some line`
for a decoded line, `none` for a decode failure, end of list for
end-of-stream), forwards one event per decoded line at the given level,
skips failures, and terminates when the stream ends. -/
def streamListener (lv : LogLevel) : List (Option String) → List LogEvent
  | [] => []
  | some line :: rest => ⟨lv, line⟩ :: streamListener lv rest
  | none :: rest => streamListener lv rest

/-! Config collaborator (`load_config` / `save_config`).  Rust strings are
modelled as `List Char` so that `trim`, `lines` and `split_once` can be
reasoned about character by character. -/

/-- Rust's `char::is_whitespace`: the Unicode `White_Space` property. -/
def rustIsWhitespace (c : Char) : Bool :=
  c = ' ' || c = '\t' || c = '\n' || c.toNat = 0x0B || c.toNat = 0x0C ||
  c = '\r' || c.toNat = 0x85 || c.toNat = 0xA0 || c.toNat = 0x1680 ||
  (0x2000 ≤ c.toNat && c.toNat ≤ 0x200A) || c.toNat = 0x2028 ||
  c.toNat = 0x2029 || c.toNat = 0x202F || c.toNat = 0x205F ||
  c.toNat = 0x3000

/-- Rust `str::trim_start`. -/
def trimStart (l : List Char) : List Char :=
  l.dropWhile rustIsWhitespace

/-- Rust `str::trim_end`. -/
def trimEnd (l : List Char) : List Char :=
  (l.reverse.dropWhile rustIsWhitespace).reverse

/-- Rust `str::trim`. -/
def rustTrim (l : List Char) : List Char :=
  trimEnd (trimStart l)

/-- Splits a character list at every occurrence of `c` (the separators are
consumed); always returns at least one piece. -/
def splitOnChar (c : Char) : List Char → List (List Char)
  | [] => [[]]
  | x :: xs =>
      match splitOnChar c xs with
      | [] => [[]]
      | y :: ys => if x = c then [] :: y :: ys else (x :: y) :: ys

/-- Drops a single trailing carriage return, as Rust `lines()` does for
`\r\n` line endings. -/
def stripCR (l : List Char) : List Char :=
  match l.getLast? with
  | some c => if c = '\r' then l.dropLast else l
  | none => l

/-- Rust `str::lines`: split at `\n`, strip a trailing `\r` from each
line, no final empty line for a trailing newline, no lines at all for the
empty string. -/
def rustLines (content : List Char) : List (List Char) :=
  if content = [] then []
  else
    let pieces := splitOnChar '\n' content
    let pieces :=
      if content.getLast? = some '\n' then pieces.dropLast else pieces
    pieces.map stripCR

/-- Rust `str::split_once('=')`: splits at the first `=`, or `none` when
the character does not occur. -/
def splitOnceEq : List Char → Option (List Char × List Char)
  | [] => none
  | c :: rest =>
      if c = '=' then some ([], rest)
      else
        match splitOnceEq rest with
        | some kv => some (c :: kv.1, kv.2)
        | none => none

/-- Insertion into the `HashMap<String, String>` modelled as an
association list: replaces the value of an existing key in place,
appends a fresh key at the end. -/
def insertAssoc (k v : List Char) :
    List (List Char × List Char) → List (List Char × List Char)
  | [] => [(k, v)]
  | kv :: rest =>
      if kv.1 = k then (k, v) :: rest else kv :: insertAssoc k v rest

/-- The body of `load_config`'s parsing loop: trim the line, skip it when
empty or `#`-prefixed, otherwise split at the first `=` (skipping lines
without one) and insert the trimmed key and value. -/
def configStep (acc : List (List Char × List Char)) (rawLine : List Char) :
    List (List Char × List Char) :=
  let line := rustTrim rawLine
  if line = [] then acc
  else if line.head? = some '#' then acc
  else
    match splitOnceEq line with
    | some kv => insertAssoc (rustTrim kv.1) (rustTrim kv.2) acc
    | none => acc

/-- Embeds the parsing loop of `load_config` (the file read itself is an
external effect; `content` is the text of `.env`). -/
def load_config (content : List Char) : List (List Char × List Char) :=
  (rustLines content).foldl configStep []

/-- Rust `Vec::join("\n")`. -/
def joinLines : List (List Char) → List Char
  | [] => []
  | [x] => x
  | x :: y :: ys => x ++ '\n' :: joinLines (y :: ys)

/-- The `format!("{}={}", k, v)` line of one map entry. -/
def lineOf (kv : List Char × List Char) : List Char :=
  kv.1 ++ '=' :: kv.2

/-- Embeds the serialisation of `save_config` (the file write itself is an
external effect): one `key=value` line per map entry, joined by `\n`,
in the map's iteration order. -/
def save_config (config : List (List Char × List Char)) : List Char :=
  joinLines (config.map lineOf)

/-- The side conditions of the config round trip: a key is non-empty,
newline-free, `=`-free, does not start with `#` and is unchanged by
trimming; a value is newline-free and unchanged by trimming. -/
def goodEntry (kv : List Char × List Char) : Prop :=
  kv.1 ≠ [] ∧ '\n' ∉ kv.1 ∧ '=' ∉ kv.1 ∧ kv.1.head? ≠ some '#' ∧
  rustTrim kv.1 = kv.1 ∧ '\n' ∉ kv.2 ∧ rustTrim kv.2 = kv.2

instance (kv : List Char × List Char) : Decidable (goodEntry kv) := by
  unfold goodEntry
  infer_instance

/-! Helper lemmas shared by the claim theorems. -/

theorem start_bot_internal_already (s : BotState) (path : String)
    (r : Except String Nat) (now : Nat) (h : s.process.isSome = true) :
    start_bot_internal s path r now =
      (s, Except.error "Bot is already running", []) := by
  simp [start_bot_internal, h]

theorem runStarts_already (s : BotState) (h : s.process.isSome = true) :
    ∀ calls, runStarts s calls =
      (s, calls.map (fun _ => Except.error "Bot is already running"), []) := by
  intro calls
  induction calls with
  | nil => rfl
  | cons c rest ih =>
      obtain ⟨path, r, now⟩ := c
      simp [runStarts, start_bot_internal_already s path r now h, ih]

theorem pairInv_start (s : BotState) (path : String) (r : Except String Nat)
    (now : Nat) (h : pairInv s) :
    pairInv (start_bot_internal s path r now).1 := by
  by_cases hp : s.process.isSome = true
  · simpa [start_bot_internal, hp]
  · cases r with
    | error e => simpa [start_bot_internal, hp]
    | ok pid => simp [start_bot_internal, hp, pairInv]

theorem pairInv_stop (p : OsKind) (d : Bool) (s : BotState) (h : pairInv s) :
    pairInv (stop_bot_internal p d s).1 := by
  cases hp : s.process with
  | some pid => simp [stop_bot_internal, hp, pairInv]
  | none => simpa [stop_bot_internal, hp]

theorem pairInv_applyOp (s : BotState) (o : Op) (h : pairInv s) :
    pairInv (applyOp s o) := by
  cases o with
  | start path r now => exact pairInv_start s path r now h
  | stop p d => exact pairInv_stop p d s h
  | restart p d path r now =>
      exact pairInv_start _ path r now (pairInv_stop p d s h)
  | status now httpRes => exact h
  | health p now probeOk rssKb => exact h

theorem runOps_pairInv (ops : List Op) : pairInv (runOps ops) := by
  have key : ∀ (l : List Op) (s : BotState), pairInv s →
      pairInv (l.foldl applyOp s) := by
    intro l
    induction l with
    | nil => intro s h; exact h
    | cons o rest ih =>
        intro s h
        exact ih (applyOp s o) (pairInv_applyOp s o h)
  exact key ops ⟨none, none⟩ rfl

/-! Claim theorems. -/

/-- Claim C1: in every supervisor state reachable by a sequence of
lifecycle operations (start, stop, restart, status, health) from the
initial state, `start_time` is `Some` if and only if `process` is `Some`;
since the operations are serialized through the mutual-exclusion domain
(every `start_time` access in the source occurs while the `process` mutex
is held), no serialized caller can observe a partially-updated pair. -/
theorem reachable_pair_invariant (ops : List Op) :
    ((runOps ops).start_time).isSome = ((runOps ops).process).isSome :=
  runOps_pairInv ops

/-- Claim C2: starting from the idle initial state, the first `start`
call spawns the worker and returns a message carrying its PID; every
subsequent `start` call with no intervening `stop` returns the
`AlreadyRunning` error, leaves the tracked worker and `start_time`
unchanged, and performs no OS action at all. -/
theorem start_only_first_succeeds (path : String) (pid now : Nat)
    (calls : List (String × Except String Nat × Nat)) :
    start_bot_internal ⟨none, none⟩ path (Except.ok pid) now =
      (⟨some pid, some now⟩,
       Except.ok ("Bot started with PID: " ++ toString pid),
       [OsAction.spawn path]) ∧
    runStarts ⟨some pid, some now⟩ calls =
      (⟨some pid, some now⟩,
       calls.map (fun _ => Except.error "Bot is already running"), []) :=
  ⟨rfl, runStarts_already ⟨some pid, some now⟩ rfl calls⟩

/-- Claim C3: on Unix, stopping a tracked worker performs, in order, the
graceful TERM signal, the fixed 500 ms grace window, the unconditional
hard kill, the blocking reap, and only then the clearing of `start_time`,
returning a success message; the outcome of delivering the TERM signal is
irrelevant (its failure is not an error); and a subsequent `status` call
on the resulting state, when no external worker answers the fallback
probe, reports `is_running = false`, `uptime_seconds = 0`, `pid = None`. -/
theorem stop_two_phase_then_status (pid t now : Nat) (d d' : Bool)
    (httpRes : Option Bool) (h : httpRes ≠ some true) :
    stop_bot_internal OsKind.unix d ⟨some pid, some t⟩ =
      (⟨none, none⟩, Except.ok "Bot stopped successfully",
       [OsAction.sigterm pid, OsAction.sleepMs 500, OsAction.killChild,
        OsAction.waitChild, OsAction.clearStart]) ∧
    stop_bot_internal OsKind.unix d ⟨some pid, some t⟩ =
      stop_bot_internal OsKind.unix d' ⟨some pid, some t⟩ ∧
    (get_bot_status ⟨none, none⟩ now httpRes).1 =
      ⟨false, 0, none⟩ := by
  refine ⟨rfl, rfl, ?_⟩
  cases httpRes with
  | none => rfl
  | some b =>
      cases b with
      | false => rfl
      | true => exact absurd rfl h

/-- Witness for C3 at PID 7, started at instant 2, with a failed fallback
probe afterwards. -/
theorem stop_two_phase_then_status_witness :
    stop_bot_internal OsKind.unix true ⟨some 7, some 2⟩ =
      (⟨none, none⟩, Except.ok "Bot stopped successfully",
       [OsAction.sigterm 7, OsAction.sleepMs 500, OsAction.killChild,
        OsAction.waitChild, OsAction.clearStart]) ∧
    stop_bot_internal OsKind.unix true ⟨some 7, some 2⟩ =
      stop_bot_internal OsKind.unix false ⟨some 7, some 2⟩ ∧
    (get_bot_status ⟨none, none⟩ 9 none).1 = ⟨false, 0, none⟩ :=
  stop_two_phase_then_status 7 2 9 true false none (by decide)

/-- Claim C4: a `stop` call with no tracked worker fails with the
`NotRunning` error, leaves the supervisor state exactly as it was, and
performs no OS action (no process-table change), on every platform. -/
theorem stop_not_running (s : BotState) (p : OsKind) (d : Bool)
    (h : s.process = none) :
    stop_bot_internal p d s = (s, Except.error "Bot is not running", []) := by
  simp [stop_bot_internal, h]

/-- Witness for C4 at the idle initial state. -/
theorem stop_not_running_witness :
    stop_bot_internal OsKind.unix true ⟨none, none⟩ =
      (⟨none, none⟩, Except.error "Bot is not running", []) :=
  stop_not_running ⟨none, none⟩ OsKind.unix true rfl

/-- Claim C5: `restart` is exactly the sequence "stop with its result
discarded, a fixed 300 ms sleep, start with the same path", returning
`start`'s result; and from any idle state (no tracked worker) it yields
the same result and the same final state as a fresh `start`. -/
theorem restart_equals_stop_delay_start (p : OsKind) (d : Bool)
    (s s2 : BotState) (path : String) (r : Except String Nat) (now : Nat)
    (h : s2.process = none) :
    restart_bot p d s path r now =
      (let step1 := stop_bot_internal p d s
       let step2 := start_bot_internal step1.1 path r now
       (step2.1, step2.2.1,
        step1.2.2 ++ OsAction.sleepMs 300 :: step2.2.2)) ∧
    (restart_bot p d s2 path r now).1 =
      (start_bot_internal s2 path r now).1 ∧
    (restart_bot p d s2 path r now).2.1 =
      (start_bot_internal s2 path r now).2.1 := by
  obtain ⟨pr, st⟩ := s2
  have hpr : pr = none := h
  subst hpr
  exact ⟨rfl, rfl, rfl⟩

/-- Witness for C5 at the idle initial state with a successful spawn. -/
theorem restart_equals_stop_delay_start_witness :
    restart_bot OsKind.unix true ⟨some 1, some 0⟩ "/tmp/worker"
        (Except.ok 7) 3 =
      (let step1 :=
        stop_bot_internal OsKind.unix true (⟨some 1, some 0⟩ : BotState)
       let step2 := start_bot_internal step1.1 "/tmp/worker" (Except.ok 7) 3
       (step2.1, step2.2.1,
        step1.2.2 ++ OsAction.sleepMs 300 :: step2.2.2)) ∧
    (restart_bot OsKind.unix true ⟨none, none⟩ "/tmp/worker"
        (Except.ok 7) 3).1 =
      (start_bot_internal ⟨none, none⟩ "/tmp/worker" (Except.ok 7) 3).1 ∧
    (restart_bot OsKind.unix true ⟨none, none⟩ "/tmp/worker"
        (Except.ok 7) 3).2.1 =
      (start_bot_internal ⟨none, none⟩ "/tmp/worker" (Except.ok 7) 3).2.1 :=
  restart_equals_stop_delay_start OsKind.unix true ⟨some 1, some 0⟩
    ⟨none, none⟩ "/tmp/worker" (Except.ok 7) 3 rfl

/-- Claim C6: `status` reports the pid and the `start_time`-derived uptime
of the locked pair (uptime 0 when `start_time` is `None`); it is running
exactly when a local worker is tracked or the fallback probe answered
with a successful HTTP status; and the single bounded-timeout GET to the
fixed local endpoint is issued if and only if no local worker is tracked
(a network error or non-success status leaves `is_running = false` and is
never surfaced as an error: the operation is total). -/
theorem status_fields_and_fallback (s : BotState) (now : Nat)
    (httpRes : Option Bool) :
    (get_bot_status s now httpRes).1.pid = s.process ∧
    (get_bot_status s now httpRes).1.uptime_seconds =
      (match s.start_time with
       | some t => now - t
       | none => 0) ∧
    ((get_bot_status s now httpRes).1.is_running = true ↔
      (s.process.isSome = true ∨ httpRes = some true)) ∧
    (get_bot_status s now httpRes).2 =
      (if s.process.isSome then []
       else [OsAction.httpGet "http://127.0.0.1:3002/metrics"]) := by
  cases hp : s.process with
  | some pid =>
      refine ⟨?_, ?_, ?_, ?_⟩ <;> simp [get_bot_status, hp]
  | none =>
      cases httpRes with
      | none => refine ⟨?_, ?_, ?_, ?_⟩ <;> simp [get_bot_status, hp]
      | some b =>
          cases b <;> (refine ⟨?_, ?_, ?_, ?_⟩ <;> simp [get_bot_status, hp])

/-- Counterexample to claim C7: in the idle state, with an external
worker answering the fallback probe, `status` reports `is_running = true`
while `health` in the very same state reports `is_running = false` —
`health` performs no HTTP fallback, so its base fields are not always
"the same that status would return in the same state". -/
theorem health_fallback_divergence :
    (get_bot_health OsKind.unix ⟨none, none⟩ 0 false none).1.is_running
        = false ∧
    (get_bot_status ⟨none, none⟩ 0 (some true)).1.is_running = true :=
  ⟨rfl, rfl⟩

/-- Claim C7 (amended): `health` returns the `is_running`,
`uptime_seconds` and `pid` that `status` would return in the same state
when the fallback probe yields no success (it derives them from the
locked pair alone, performing no HTTP fallback), extended with the two
OS-level checks performed only when a PID is known — the zero-signal
probe yielding `is_responsive` and the `ps` resident-memory query
converted to megabytes yielding `memory_mb`; on non-Unix platforms the
checks are unavailable, `is_responsive` defaults to `true` and
`memory_mb` is absent; and no check mutates the supervisor state. -/
theorem health_extends_local_status (p : OsKind) (s : BotState) (now : Nat)
    (probeOk : Bool) (rssKb : Option ℚ) :
    (get_bot_health p s now probeOk rssKb).1.is_running =
      (get_bot_status s now none).1.is_running ∧
    (get_bot_health p s now probeOk rssKb).1.uptime_seconds =
      (get_bot_status s now none).1.uptime_seconds ∧
    (get_bot_health p s now probeOk rssKb).1.pid =
      (get_bot_status s now none).1.pid ∧
    (get_bot_health p s now probeOk rssKb).1.is_responsive =
      (match s.process, p with
       | some _, OsKind.unix => probeOk
       | some _, OsKind.other => true
       | none, _ => false) ∧
    (get_bot_health p s now probeOk rssKb).1.memory_mb =
      (match s.process, p with
       | some _, OsKind.unix => rssKb.map (fun r => r / 1024)
       | _, _ => none) ∧
    (get_bot_health p s now probeOk rssKb).2 =
      (match s.process, p with
       | some q, OsKind.unix => [OsAction.memQuery q, OsAction.sigZero q]
       | _, _ => []) := by
  cases hp : s.process with
  | some pid =>
      cases p <;> (refine ⟨?_, ?_, ?_, ?_, ?_, ?_⟩ <;>
        simp [get_bot_health, get_bot_status, hp])
  | none =>
      cases p <;> (refine ⟨?_, ?_, ?_, ?_, ?_, ?_⟩ <;>
        simp [get_bot_health, get_bot_status, hp])

/-- Claim C8: each stream listener forwards exactly one event per
successfully decoded line, at its own level, in the order written,
silently skipping lines that fail to decode, and terminates at
end-of-stream (it is a total function of the finite stream, independent
of any `stop` call); in particular a worker writing 1000 stdout lines
yields exactly 1000 `Info` events in order. -/
theorem listener_per_line_in_order :
    (∀ (lv : LogLevel) (xs : List (Option String)),
      streamListener lv xs =
        (xs.filterMap id).map (fun m => LogEvent.mk lv m)) ∧
    (∀ msgs : List String,
      streamListener LogLevel.info (msgs.map some) =
        msgs.map (fun m => LogEvent.mk LogLevel.info m)) ∧
    (∀ msgs : List String,
      streamListener LogLevel.err (msgs.map some) =
        msgs.map (fun m => LogEvent.mk LogLevel.err m)) ∧
    (streamListener LogLevel.info
        (List.replicate 1000 (some "line"))).length = 1000 := by
  have key : ∀ (lv : LogLevel) (xs : List (Option String)),
      streamListener lv xs =
        (xs.filterMap id).map (fun m => LogEvent.mk lv m) := by
    intro lv xs
    induction xs with
    | nil => rfl
    | cons x rest ih =>
        cases x with
        | some line => simp [streamListener, ih]
        | none => simp [streamListener, ih]
  have onDecoded : ∀ (lv : LogLevel) (msgs : List String),
      streamListener lv (msgs.map some) =
        msgs.map (fun m => LogEvent.mk lv m) := by
    intro lv msgs
    simp [key]
  refine ⟨key, onDecoded LogLevel.info, onDecoded LogLevel.err, ?_⟩
  have hrep : (List.replicate 1000 (some "line")) =
      (List.replicate 1000 "line").map some :=
    (List.map_replicate).symm
  rw [hrep, onDecoded, List.length_map, List.length_replicate]

/-- Claim C10: a `health` call in any reachable state with no tracked
worker skips both OS-level checks (empty trace) and returns
`is_running = false`, `is_responsive = false` (not the optimistic
default), `uptime_seconds = 0`, `pid = None`, `memory_mb = None`. -/
theorem health_idle_all_false (ops : List Op) (p : OsKind) (now : Nat)
    (probeOk : Bool) (rssKb : Option ℚ)
    (h : (runOps ops).process = none) :
    get_bot_health p (runOps ops) now probeOk rssKb =
      (⟨false, false, 0, none, none⟩, []) := by
  have hinv := runOps_pairInv ops
  unfold pairInv at hinv
  generalize hE : runOps ops = s0 at h hinv
  obtain ⟨pr, st⟩ := s0
  have h1 : pr = none := h
  subst h1
  have h2 : st = none := by
    cases st with
    | none => rfl
    | some t => simp at hinv
  subst h2
  rfl

/-- Witness for C10 at the initial state. -/
theorem health_idle_all_false_witness :
    get_bot_health OsKind.unix (runOps []) 0 false none =
      (⟨false, false, 0, none, none⟩, []) :=
  health_idle_all_false [] OsKind.unix 0 false none rfl

/-! Lemmas about the config collaborator's string functions. -/

theorem dropWhile_eq_self_iff_head (p : Char → Bool) (l : List Char) :
    l.dropWhile p = l ↔ ∀ c, l.head? = some c → p c = false := by
  cases l with
  | nil => simp
  | cons a as =>
      rw [List.dropWhile_eq_self_iff]
      constructor
      · intro h c hc
        obtain rfl : a = c := by simpa using hc
        have := h (by simp)
        simpa using this
      · intro h hl
        have := h a rfl
        simp [this]

theorem trimStart_eq_self_iff (l : List Char) :
    trimStart l = l ↔ ∀ c, l.head? = some c → rustIsWhitespace c = false :=
  dropWhile_eq_self_iff_head rustIsWhitespace l

theorem trimEnd_eq_self_iff (l : List Char) :
    trimEnd l = l ↔ ∀ c, l.getLast? = some c → rustIsWhitespace c = false := by
  unfold trimEnd
  constructor
  · intro h c hc
    have h2 : l.reverse.dropWhile rustIsWhitespace = l.reverse := by
      have := congrArg List.reverse h
      simpa using this
    exact (dropWhile_eq_self_iff_head _ _).mp h2 c
      (by rwa [List.head?_reverse])
  · intro h
    have h2 : l.reverse.dropWhile rustIsWhitespace = l.reverse :=
      (dropWhile_eq_self_iff_head _ _).mpr
        (fun c hc => h c (by rwa [List.head?_reverse] at hc))
    rw [h2, List.reverse_reverse]

theorem trimEnd_sublist (l : List Char) : (trimEnd l).Sublist l := by
  have := (@List.dropWhile_sublist Char l.reverse rustIsWhitespace).reverse
  simpa [trimEnd] using this

theorem rustTrim_eq_self_iff (l : List Char) :
    rustTrim l = l ↔
      ((∀ c, l.head? = some c → rustIsWhitespace c = false) ∧
       (∀ c, l.getLast? = some c → rustIsWhitespace c = false)) := by
  constructor
  · intro h
    have hsub1 : (trimStart l).Sublist l := List.dropWhile_sublist _
    have hsub2 : (rustTrim l).Sublist (trimStart l) := trimEnd_sublist _
    have hlen : (rustTrim l).length = l.length := by rw [h]
    have hlen1 : (trimStart l).length = l.length :=
      le_antisymm (hsub1.length_le)
        (by calc l.length = (rustTrim l).length := hlen.symm
              _ ≤ (trimStart l).length := hsub2.length_le)
    have hts : trimStart l = l := hsub1.eq_of_length hlen1
    have hte : trimEnd l = l := by
      have : rustTrim l = trimEnd l := by rw [rustTrim, hts]
      rw [← this, h]
    exact ⟨(trimStart_eq_self_iff l).mp hts, (trimEnd_eq_self_iff l).mp hte⟩
  · rintro ⟨h1, h2⟩
    have hts : trimStart l = l := (trimStart_eq_self_iff l).mpr h1
    rw [rustTrim, hts]
    exact (trimEnd_eq_self_iff l).mpr h2

theorem splitOnChar_ne_nil (c : Char) (l : List Char) :
    splitOnChar c l ≠ [] := by
  cases l with
  | nil => simp [splitOnChar]
  | cons x xs =>
      simp only [splitOnChar]
      cases h : splitOnChar c xs with
      | nil => simp
      | cons y ys => by_cases hx : x = c <;> simp [hx]

theorem splitOnChar_not_mem {c : Char} {l : List Char} (h : c ∉ l) :
    splitOnChar c l = [l] := by
  induction l with
  | nil => rfl
  | cons x xs ih =>
      have hx : ¬(x = c) := by
        rintro rfl; exact h (List.mem_cons_self x xs)
      have hxs : c ∉ xs := fun hm => h (List.mem_cons_of_mem _ hm)
      simp only [splitOnChar, ih hxs]
      simp [hx]

theorem splitOnChar_append {c : Char} {l₁ l₂ : List Char} (h : c ∉ l₁) :
    splitOnChar c (l₁ ++ c :: l₂) = l₁ :: splitOnChar c l₂ := by
  induction l₁ with
  | nil =>
      simp only [List.nil_append, splitOnChar]
      cases h2 : splitOnChar c l₂ with
      | nil => exact absurd h2 (splitOnChar_ne_nil c l₂)
      | cons y ys => simp
  | cons x xs ih =>
      have hx : ¬(x = c) := by
        rintro rfl; exact h (List.mem_cons_self x xs)
      have hxs : c ∉ xs := fun hm => h (List.mem_cons_of_mem _ hm)
      simp only [List.cons_append, splitOnChar, List.append_eq]
      rw [ih hxs]
      simp [hx]

theorem joinLines_ne_nil {ls : List (List Char)} (h : ls ≠ [])
    (hne : ∀ p ∈ ls, p ≠ []) : joinLines ls ≠ [] := by
  match ls with
  | [] => exact absurd rfl h
  | [x] => exact hne x (List.mem_singleton.mpr rfl)
  | x :: y :: ys => simp [joinLines]

theorem splitOnChar_joinLines {ls : List (List Char)} (h : ls ≠ [])
    (hnl : ∀ p ∈ ls, '\n' ∉ p) :
    splitOnChar '\n' (joinLines ls) = ls := by
  match ls with
  | [] => exact absurd rfl h
  | [x] =>
      rw [joinLines]
      exact splitOnChar_not_mem (hnl x (List.mem_singleton.mpr rfl))
  | x :: y :: ys =>
      rw [joinLines, splitOnChar_append (hnl x (by simp))]
      rw [splitOnChar_joinLines (by simp)
        (fun p hp => hnl p (List.mem_cons_of_mem _ hp))]

theorem mem_of_getLast?_eq {l : List Char} {c : Char}
    (h : l.getLast? = some c) : c ∈ l := by
  obtain ⟨hne, rfl⟩ := List.mem_getLast?_eq_getLast h
  exact List.getLast_mem hne

theorem getLast?_cons_of_ne_nil {a : Char} {l : List Char} (h : l ≠ []) :
    (a :: l).getLast? = l.getLast? := by
  have : (a :: l) = [a] ++ l := rfl
  rw [this, List.getLast?_append]
  cases hg : l.getLast? with
  | none => exact absurd (List.getLast?_eq_none.mp hg) h
  | some d => rfl

theorem joinLines_getLast_ne_nl {ls : List (List Char)}
    (hne : ∀ p ∈ ls, p ≠ []) (hnl : ∀ p ∈ ls, '\n' ∉ p) :
    ∀ c, (joinLines ls).getLast? = some c → c ≠ '\n' := by
  match ls with
  | [] => intro c hc; simp [joinLines] at hc
  | [x] =>
      intro c hc
      rw [joinLines] at hc
      intro hceq
      subst hceq
      exact hnl x (List.mem_singleton.mpr rfl) (mem_of_getLast?_eq hc)
  | x :: y :: ys =>
      intro c hc
      rw [joinLines] at hc
      have hjne : joinLines (y :: ys) ≠ [] :=
        joinLines_ne_nil (by simp)
          (fun p hp => hne p (List.mem_cons_of_mem _ hp))
      rw [List.getLast?_append, getLast?_cons_of_ne_nil hjne] at hc
      cases hg : (joinLines (y :: ys)).getLast? with
      | none => exact absurd (List.getLast?_eq_none.mp hg) hjne
      | some d =>
          rw [hg, Option.or_some] at hc
          obtain rfl : d = c := by simpa using hc
          exact joinLines_getLast_ne_nl
            (fun p hp => hne p (List.mem_cons_of_mem _ hp))
            (fun p hp => hnl p (List.mem_cons_of_mem _ hp)) _ hg

theorem stripCR_eq_self {l : List Char} (h : l.getLast? ≠ some '\r') :
    stripCR l = l := by
  unfold stripCR
  cases hg : l.getLast? with
  | none => rfl
  | some c =>
      have : ¬(c = '\r') := by rintro rfl; exact h hg
      simp [this]

theorem rustLines_joinLines {ls : List (List Char)}
    (hne : ∀ p ∈ ls, p ≠ []) (hnl : ∀ p ∈ ls, '\n' ∉ p)
    (hcr : ∀ p ∈ ls, p.getLast? ≠ some '\r') :
    rustLines (joinLines ls) = ls := by
  cases hls : ls with
  | nil => simp [rustLines, joinLines]
  | cons a as =>
      subst hls
      have hlsne : (a :: as : List (List Char)) ≠ [] := by simp
      have hc1 : joinLines (a :: as) ≠ [] := joinLines_ne_nil hlsne hne
      have hc2 : ¬((joinLines (a :: as)).getLast? = some '\n') := by
        intro hg
        exact joinLines_getLast_ne_nl hne hnl '\n' hg rfl
      rw [rustLines, if_neg hc1]
      simp only [if_neg hc2]
      rw [splitOnChar_joinLines hlsne hnl]
      calc (a :: as).map stripCR
          = (a :: as).map id := List.map_congr_left
            (fun p hp => stripCR_eq_self (hcr p hp))
        _ = a :: as := List.map_id _

theorem rustLines_line_cons {l : List Char} (c₂ : List Char)
    (hnl : '\n' ∉ l) (hcr : l.getLast? ≠ some '\r') :
    rustLines (l ++ '\n' :: c₂) = l :: rustLines c₂ := by
  have hone : (l ++ '\n' :: c₂) ≠ [] := by simp
  rw [rustLines, if_neg hone, splitOnChar_append hnl]
  cases hc2 : c₂ with
  | nil =>
      have hg : (l ++ '\n' :: ([] : List Char)).getLast? = some '\n' :=
        List.getLast?_concat l
      simp only [hg, if_pos rfl]
      rw [splitOnChar_not_mem (by simp : '\n' ∉ ([] : List Char))]
      simp [rustLines, stripCR_eq_self hcr]
  | cons b bs =>
      have hcne : (b :: bs : List Char) ≠ [] := by simp
      have hsne : splitOnChar '\n' (b :: bs) ≠ [] := splitOnChar_ne_nil _ _
      have hgeq : (l ++ '\n' :: b :: bs).getLast? = (b :: bs).getLast? := by
        rw [List.getLast?_append, getLast?_cons_of_ne_nil hcne]
        cases hg : (b :: bs).getLast? with
        | none => exact absurd (List.getLast?_eq_none.mp hg) hcne
        | some d => rfl
      rw [hgeq, rustLines, if_neg hcne]
      by_cases hlast : (b :: bs).getLast? = some '\n'
      · simp only [hlast, if_pos rfl]
        simp [stripCR_eq_self hcr]
        exact List.dropLast_cons_of_ne_nil (by simpa using hsne)
      · simp only [if_neg hlast]
        simp [stripCR_eq_self hcr]

theorem lineOf_head? {k v : List Char} (hk : k ≠ []) :
    (lineOf (k, v)).head? = k.head? := by
  cases k with
  | nil => exact absurd rfl hk
  | cons c cs => simp [lineOf]

theorem lineOf_getLast_not_ws {k v : List Char} (hv : rustTrim v = v) :
    ∀ c, (lineOf (k, v)).getLast? = some c → rustIsWhitespace c = false := by
  intro c hc
  have hlast := ((rustTrim_eq_self_iff v).mp hv).2
  unfold lineOf at hc
  rw [List.getLast?_append] at hc
  cases hv2 : v with
  | nil =>
      subst hv2
      simp only [List.getLast?_singleton, Option.or_some] at hc
      obtain rfl : '=' = c := by simpa using hc
      decide
  | cons b bs =>
      subst hv2
      rw [getLast?_cons_of_ne_nil (by simp)] at hc
      cases hg : (b :: bs).getLast? with
      | none => exact absurd (List.getLast?_eq_none.mp hg) (by simp)
      | some d =>
          rw [hg, Option.or_some] at hc
          obtain rfl : d = c := by simpa using hc
          exact hlast _ hg

theorem rustTrim_lineOf {k v : List Char} (hk : k ≠ [])
    (hkt : rustTrim k = k) (hvt : rustTrim v = v) :
    rustTrim (lineOf (k, v)) = lineOf (k, v) := by
  apply (rustTrim_eq_self_iff _).mpr
  constructor
  · intro c hc
    rw [lineOf_head? hk] at hc
    exact ((rustTrim_eq_self_iff k).mp hkt).1 c hc
  · exact lineOf_getLast_not_ws hvt

theorem splitOnceEq_lineOf {k v : List Char} (hk : '=' ∉ k) :
    splitOnceEq (k ++ '=' :: v) = some (k, v) := by
  induction k with
  | nil => simp [splitOnceEq]
  | cons c cs ih =>
      have hc : ¬(c = '=') := by
        rintro rfl; exact hk (List.mem_cons_self _ _)
      have hcs : '=' ∉ cs := fun hm => hk (List.mem_cons_of_mem _ hm)
      simp only [List.cons_append, splitOnceEq, List.append_eq]
      rw [ih hcs]
      simp [hc]

theorem insertAssoc_append {k v : List Char}
    {acc : List (List Char × List Char)} (h : ∀ kv ∈ acc, kv.1 ≠ k) :
    insertAssoc k v acc = acc ++ [(k, v)] := by
  induction acc with
  | nil => rfl
  | cons kv rest ih =>
      simp only [insertAssoc]
      rw [if_neg (h kv (List.mem_cons_self kv rest))]
      rw [ih (fun x hx => h x (List.mem_cons_of_mem _ hx))]
      simp

theorem configStep_lineOf {kv : List Char × List Char} (hg : goodEntry kv)
    (acc : List (List Char × List Char)) :
    configStep acc (lineOf kv) = insertAssoc kv.1 kv.2 acc := by
  obtain ⟨k, v⟩ := kv
  obtain ⟨hk_ne, hk_nl, hk_eq, hk_hash, hk_trim, hv_nl, hv_trim⟩ := hg
  have htrim : rustTrim (lineOf (k, v)) = lineOf (k, v) :=
    rustTrim_lineOf hk_ne hk_trim hv_trim
  have hne : lineOf (k, v) ≠ [] := by simp [lineOf]
  have hhash : ¬((lineOf (k, v)).head? = some '#') := by
    rw [lineOf_head? hk_ne]; exact hk_hash
  have hsplit : splitOnceEq (lineOf (k, v)) = some (k, v) :=
    splitOnceEq_lineOf hk_eq
  unfold configStep
  simp only [htrim]
  rw [if_neg hne, if_neg hhash, hsplit]
  simp [hk_trim, hv_trim]

theorem foldl_configStep {m acc : List (List Char × List Char)}
    (hgood : ∀ kv ∈ m, goodEntry kv)
    (hpair : m.Pairwise (fun a b => a.1 ≠ b.1))
    (hdis : ∀ kv ∈ m, ∀ kv₂ ∈ acc, kv₂.1 ≠ kv.1) :
    (m.map lineOf).foldl configStep acc = acc ++ m := by
  induction m generalizing acc with
  | nil => simp
  | cons kv rest ih =>
      rw [List.map_cons, List.foldl_cons,
        configStep_lineOf (hgood kv (List.mem_cons_self kv rest)) acc,
        insertAssoc_append
          (fun x hx => hdis kv (List.mem_cons_self kv rest) x hx)]
      have hpair2 := List.pairwise_cons.mp hpair
      rw [ih (fun x hx => hgood x (List.mem_cons_of_mem _ hx)) hpair2.2 ?hdis2]
      · simp
      case hdis2 =>
        intro kv2 h2 kv₃ h₃
        rcases List.mem_append.mp h₃ with hacc | hnew
        · exact hdis kv2 (List.mem_cons_of_mem _ h2) kv₃ hacc
        · have : kv₃ = (kv.1, kv.2) := List.mem_singleton.mp hnew
          rw [this]
          exact hpair2.1 kv2 h2

/-- Claim C9: for every key/value map whose keys are non-empty,
newline-free, `=`-free, not `#`-prefixed and unchanged by trimming, and
whose values are newline-free and unchanged by trimming, loading the
config text immediately after saving that map returns exactly the same
map; moreover loading ignores blank lines and `#`-prefixed comment lines
(prepending such a line, itself newline-free and not ending in a bare
carriage return, to any config text leaves the load result unchanged),
each remaining line being split at its first `=` into a trimmed key and
trimmed value. -/
theorem config_round_trip (m : List (List Char × List Char))
    (l content : List Char)
    (hpair : m.Pairwise (fun a b => a.1 ≠ b.1))
    (hgood : ∀ kv ∈ m, goodEntry kv)
    (hnl : '\n' ∉ l) (hcr : l.getLast? ≠ some '\r')
    (hskip : rustTrim l = [] ∨ (rustTrim l).head? = some '#') :
    load_config (save_config m) = m ∧
    load_config (l ++ '\n' :: content) = load_config content := by
  constructor
  · have h1 : ∀ p ∈ m.map lineOf, p ≠ [] := by
      intro p hp
      obtain ⟨kv, _, rfl⟩ := List.mem_map.mp hp
      simp [lineOf]
    have h2 : ∀ p ∈ m.map lineOf, '\n' ∉ p := by
      intro p hp
      obtain ⟨kv, hkv, rfl⟩ := List.mem_map.mp hp
      obtain ⟨_, hk_nl, _, _, _, hv_nl, _⟩ := hgood kv hkv
      intro hmem
      rcases List.mem_append.mp hmem with hA | hB
      · exact hk_nl hA
      · rcases List.mem_cons.mp hB with hEq | hC
        · exact absurd hEq (by decide)
        · exact hv_nl hC
    have h3 : ∀ p ∈ m.map lineOf, p.getLast? ≠ some '\r' := by
      intro p hp hlast
      obtain ⟨kv, hkv, rfl⟩ := List.mem_map.mp hp
      obtain ⟨_, _, _, _, _, _, hv_trim⟩ := hgood kv hkv
      have hws := @lineOf_getLast_not_ws kv.1 kv.2 hv_trim '\r'
      exact absurd (hws hlast) (by decide)
    unfold load_config save_config
    rw [rustLines_joinLines h1 h2 h3]
    have := @foldl_configStep m [] hgood hpair
      (fun kv _ kv₂ h₂ => absurd h₂ (List.not_mem_nil _))
    simpa using this
  · unfold load_config
    rw [rustLines_line_cons content hnl hcr, List.foldl_cons]
    have hstep : configStep [] l = [] := by
      unfold configStep
      by_cases h0 : rustTrim l = []
      · simp [h0]
      · rcases hskip with h1 | h2
        · exact absurd h1 h0
        · simp [h0, h2]
    rw [hstep]

/-- Witness for C9: a two-entry map round-trips, and a `#` comment line
prepended to a saved one-entry config is ignored. -/
theorem config_round_trip_witness :
    load_config (save_config [(['A'], ['1']), (['B'], ['2'])]) =
      [(['A'], ['1']), (['B'], ['2'])] ∧
    load_config (['#', 'c'] ++ '\n' :: save_config [(['A'], ['1'])]) =
      load_config (save_config [(['A'], ['1'])]) :=
  config_round_trip [(['A'], ['1']), (['B'], ['2'])] ['#', 'c']
    (save_config [(['A'], ['1'])]) (by decide) (by decide) (by decide)
    (by decide) (by decide)
